import Mathlib

/-!
# Verification of the game-translate real-time audio pipeline

Shallow embedding of the core audio-pipeline components of the repository
(`app/audio/chunker.py`, `app/providers/local_stt_provider.py`,
`app/providers/ws_stt_provider.py`, `app/workers/stream_workers.py`)
together with proofs of the testable properties stated in the design
specification.

PCM samples are modelled as `Int` (the 16-bit signed values fit in `Int`);
a frame or block is a `List Int`; energy levels and the adaptive noise
floor are modelled as exact rationals `ℚ` in place of Python floats.
-/

namespace Chunker

/-- Embedding of the `while len(self.buffer) >= self.chunk_frames` slide loop of
`AudioChunker.add_frame` (chunker.py lines 22-29).  `N` is `chunk_frames`, `m` is
`overlap_frames`.  One iteration concatenates the first `N` buffered frames into
a chunk and then pops `N - m` frames from the front (Python's
`range(chunk_frames - overlap_frames)` is empty when the difference is not
positive, which matches truncated subtraction on `Nat`).  The loop is given a
step budget `fuel`; `none` means the budget was exhausted with the loop guard
still true, so the Python loop would still be running after that many
iterations. -/
def chunkLoop (N m : Nat) : Nat → List (List Int) → List (List Int) →
    Option (List (List Int) × List (List Int))
  | 0, buf, acc => if N ≤ buf.length then none else some (buf, acc)
  | fuel + 1, buf, acc =>
    if N ≤ buf.length then
      chunkLoop N m fuel (buf.drop (N - m)) (acc ++ [(buf.take N).flatten])
    else
      some (buf, acc)

/-- Embedding of `AudioChunker.add_frame`: append the frame to the buffer, then
run the slide loop.  The budget `buf.length + 1` covers every terminating run of
the Python loop, because each iteration that makes progress pops at least one
frame. -/
def addFrame (N m : Nat) (buf : List (List Int)) (frame : List Int) :
    Option (List (List Int) × List (List Int)) :=
  chunkLoop N m (buf.length + 1) (buf ++ [frame]) []

/-- Feeding a whole stream of frames through `add_frame` on a freshly
constructed chunker (empty buffer), collecting every emitted chunk in order. -/
def runChunker (N m : Nat) (frames : List (List Int)) :
    Option (List (List Int) × List (List Int)) :=
  frames.foldl
    (fun acc f =>
      match acc with
      | none => none
      | some (buf, chunks) =>
        match addFrame N m buf f with
        | none => none
        | some (buf2, cs) => some (buf2, chunks ++ cs))
    (some ([], []))

/-- The `j`-th chunk the chunker emits from a frame stream: the concatenation of
the `N` frames starting at position `j * (N - m)`. -/
def chunkSpec (N s : Nat) (frames : List (List Int)) (j : Nat) : List Int :=
  ((frames.drop (j * s)).take N).flatten

/-- Reassembly of a chunk stream with each chunk's leading overlap removed
(the first chunk has no leading overlap and is kept whole). -/
def dechunk (ov : Nat) : List (List Int) → List Int
  | [] => []
  | c :: cs => c ++ (cs.map (List.drop ov)).flatten

-- Basic behaviour of the slide loop ------------------------------------------

theorem chunkLoop_of_lt (N m : Nat) (fuel : Nat) (buf acc : List (List Int))
    (h : buf.length < N) : chunkLoop N m fuel buf acc = some (buf, acc) := by
  cases fuel with
  | zero => simp [chunkLoop, Nat.not_le.mpr h]
  | succ fuel => simp [chunkLoop, Nat.not_le.mpr h]

theorem chunkLoop_step (N m : Nat) (fuel : Nat) (buf acc : List (List Int))
    (h : N ≤ buf.length) :
    chunkLoop N m (fuel + 1) buf acc =
      chunkLoop N m fuel (buf.drop (N - m)) (acc ++ [(buf.take N).flatten]) := by
  simp [chunkLoop, h]

/-- If the new buffer is still shorter than `chunk_frames`, `add_frame` emits
nothing and just appends the frame. -/
theorem addFrame_of_short (N m : Nat) (buf : List (List Int)) (f : List Int)
    (h : buf.length + 1 < N) : addFrame N m buf f = some (buf ++ [f], []) := by
  unfold addFrame
  exact chunkLoop_of_lt N m _ _ _ (by simpa using h)

/-- If appending the frame brings the buffer to exactly `chunk_frames` frames
(and the overlap is smaller than the chunk), `add_frame` emits exactly one
chunk — the whole buffer concatenated — and slides by `N - m`. -/
theorem addFrame_of_full (N m : Nat) (buf : List (List Int)) (f : List Int)
    (hm : m < N) (h : buf.length + 1 = N) :
    addFrame N m buf f =
      some ((buf ++ [f]).drop (N - m), [(buf ++ [f]).flatten]) := by
  unfold addFrame
  have hlen : (buf ++ [f]).length = N := by simp [h]
  rw [show buf.length + 1 = N from h]
  cases N with
  | zero => omega
  | succ n =>
    rw [chunkLoop_step _ _ _ _ _ (by rw [hlen])]
    have htake : (buf ++ [f]).take (n + 1) = buf ++ [f] :=
      List.take_of_length_le (by rw [hlen])
    rw [htake]
    have hdrop : ((buf ++ [f]).drop (n + 1 - m)).length < n + 1 := by
      rw [List.length_drop, hlen]
      omega
    rw [chunkLoop_of_lt _ _ _ _ _ hdrop]
    simp

-- Helper lemmas about flattening lists of uniform-length frames ---------------

theorem flatten_take_uniform (L : Nat) (t : Nat) (l : List (List Int))
    (h : ∀ x ∈ l, x.length = L) :
    l.flatten.take (t * L) = (l.take t).flatten := by
  induction t generalizing l with
  | zero => simp
  | succ t ih =>
    cases l with
    | nil => simp
    | cons a l =>
      have ha : a.length = L := h a (List.mem_cons_self a l)
      have hl : ∀ x ∈ l, x.length = L := fun x hx => h x (List.mem_cons_of_mem a hx)
      have hs : (t + 1) * L = L + t * L := by ring
      simp only [List.flatten_cons, List.take_succ_cons, hs,
        List.take_append_eq_append_take]
      rw [List.take_of_length_le (by omega), ha]
      simp [ih l hl]

theorem flatten_drop_uniform (L : Nat) (t : Nat) (l : List (List Int))
    (h : ∀ x ∈ l, x.length = L) :
    l.flatten.drop (t * L) = (l.drop t).flatten := by
  induction t generalizing l with
  | zero => simp
  | succ t ih =>
    cases l with
    | nil => simp
    | cons a l =>
      have ha : a.length = L := h a (List.mem_cons_self a l)
      have hl : ∀ x ∈ l, x.length = L := fun x hx => h x (List.mem_cons_of_mem a hx)
      have hs : (t + 1) * L = L + t * L := by ring
      simp only [List.flatten_cons, List.drop_succ_cons, hs,
        List.drop_append_eq_append_drop]
      rw [List.drop_of_length_le (by omega), ha]
      simp [ih l hl]

theorem flatten_length_uniform (L : Nat) (l : List (List Int))
    (h : ∀ x ∈ l, x.length = L) : l.flatten.length = l.length * L := by
  induction l with
  | nil => simp
  | cons a l ih =>
    have ha : a.length = L := h a (List.mem_cons_self a l)
    have hl : ∀ x ∈ l, x.length = L := fun x hx => h x (List.mem_cons_of_mem a hx)
    simp [ih hl, ha]
    ring

-- Termination analysis of the slide loop (claim C10) --------------------------

/-- With `overlap_frames ≥ chunk_frames`, one slide iteration pops nothing, so
once the guard holds it holds forever: the loop never returns, whatever the
step budget. -/
theorem chunkLoop_diverges (N m : Nat) (hm : ¬ m < N) :
    ∀ fuel buf acc, N ≤ List.length buf →
      chunkLoop N m fuel buf acc = none := by
  intro fuel
  induction fuel with
  | zero => intro buf acc h; simp [chunkLoop, h]
  | succ fuel ih =>
    intro buf acc h
    have hz : N - m = 0 := Nat.sub_eq_zero_of_le (Nat.le_of_not_lt hm)
    rw [chunkLoop_step _ _ _ _ _ h, hz, List.drop_zero]
    exact ih buf _ h

/-- With `overlap_frames < chunk_frames`, every slide iteration pops at least
one frame, so a budget of the buffer length always suffices. -/
theorem chunkLoop_some_of_lt (N m : Nat) (hm : m < N) :
    ∀ fuel buf acc, List.length buf ≤ fuel →
      ∃ r, chunkLoop N m fuel buf acc = some r := by
  intro fuel
  induction fuel with
  | zero =>
    intro buf acc h
    refine ⟨(buf, acc), ?_⟩
    exact chunkLoop_of_lt N m 0 buf acc (by omega)
  | succ fuel ih =>
    intro buf acc h
    by_cases hg : N ≤ buf.length
    · rw [chunkLoop_step _ _ _ _ _ hg]
      exact ih _ _ (by simp [List.length_drop]; omega)
    · exact ⟨(buf, acc), chunkLoop_of_lt N m _ buf acc (by omega)⟩

/-- Claim C10: `AudioChunker.add_frame` terminates on every input iff
`overlap_frames < chunk_frames`.  Under that precondition a call on a buffer
previously below `chunk_frames` emits at most one chunk; without it, as soon as
the buffer reaches `chunk_frames` frames the slide loop pops no frames and the
call never returns (it returns `none` for every step budget). -/
theorem addFrame_terminates_iff (N m : Nat) :
    ((∀ buf f, (addFrame N m buf f).isSome) ↔ m < N) ∧
    (¬ m < N → ∀ fuel buf f, N ≤ buf.length + 1 →
      chunkLoop N m fuel (buf ++ [f]) [] = none) ∧
    (m < N → ∀ buf f, buf.length < N →
      ∃ buf2 cs, addFrame N m buf f = some (buf2, cs) ∧ cs.length ≤ 1) := by
  refine ⟨⟨fun hall => ?_, fun hm buf f => ?_⟩, fun hm fuel buf f h => ?_, ?_⟩
  · by_contra hm
    have hdiv := chunkLoop_diverges N m hm (N + 1)
      (List.replicate N [] ++ [[]]) [] (by simp)
    have := hall (List.replicate N []) []
    rw [addFrame] at this
    simp only [List.length_replicate] at this
    rw [hdiv] at this
    simp at this
  · rcases chunkLoop_some_of_lt N m hm (buf.length + 1) (buf ++ [f]) []
      (by simp) with ⟨r, hr⟩
    rw [addFrame, hr]; rfl
  · exact chunkLoop_diverges N m hm fuel (buf ++ [f]) [] (by simp; omega)
  · intro hm buf f hlen
    rcases Nat.lt_or_ge (buf.length + 1) N with hc | hc
    · exact ⟨buf ++ [f], [], addFrame_of_short N m buf f hc, by simp⟩
    · have he : buf.length + 1 = N := by omega
      exact ⟨(buf ++ [f]).drop (N - m), [(buf ++ [f]).flatten],
        addFrame_of_full N m buf f hm he, by simp⟩

/-- Concrete instantiation of `addFrame_terminates_iff` at the repository's
default configuration (`chunk_frames = 20`, `overlap_frames = 5`). -/
theorem addFrame_terminates_iff_witness :
    (addFrame 20 5 (List.replicate 7 [0]) [1]).isSome :=
  ((addFrame_terminates_iff 20 5).1.2 (by decide)) (List.replicate 7 [0]) [1]

-- Closed form of a whole chunker run (claim C1) -------------------------------

theorem runChunker_append_some (N m : Nat) (l : List (List Int)) (f : List Int)
    (buf chunks buf2 cs : List (List Int))
    (h1 : runChunker N m l = some (buf, chunks))
    (h2 : addFrame N m buf f = some (buf2, cs)) :
    runChunker N m (l ++ [f]) = some (buf2, chunks ++ cs) := by
  unfold runChunker at h1 ⊢
  rw [List.foldl_append, h1, List.foldl_cons, List.foldl_nil]
  simp [h2]

/-- A chunk whose `N` source frames lie inside `l` is unaffected by appending a
further frame to the stream. -/
theorem chunkSpec_append (N s : Nat) (l : List (List Int)) (f : List Int)
    (j : Nat) (h : j * s + N ≤ l.length) :
    chunkSpec N s (l ++ [f]) j = chunkSpec N s l j := by
  unfold chunkSpec
  rw [List.drop_append_of_le_length (by omega),
    List.take_append_of_le_length (by rw [List.length_drop]; omega)]

/-- Closed form of the chunker: running a fresh chunker over a frame stream
emits, in order, the chunks starting at positions `0, s, 2s, …` (with
`s = chunk_frames - overlap_frames`), each `N` frames long, exactly for those
start positions whose window fits in the stream; the final buffer holds the
remaining tail of the stream. -/
theorem runChunker_closed (N m : Nat) (hm : m < N) (frames : List (List Int)) :
    ∃ k, runChunker N m frames =
        some (frames.drop (k * (N - m)),
          (List.range k).map (chunkSpec N (N - m) frames)) ∧
      frames.length < k * (N - m) + N ∧
      (∀ j < k, j * (N - m) + N ≤ frames.length) := by
  induction frames using List.reverseRecOn with
  | nil =>
    refine ⟨0, by simp [runChunker], by simp; omega, by simp⟩
  | append_singleton l f ih =>
    obtain ⟨k, hrun, hlt, hbound⟩ := ih
    have hspos : 0 < N - m := by omega
    have hks : k * (N - m) ≤ l.length := by
      rcases Nat.eq_zero_or_pos k with hk0 | hkpos
      · simp [hk0]
      · have h1 := hbound (k - 1) (by omega)
        have h2 : k * (N - m) = (k - 1) * (N - m) + (N - m) := by
          have hk1 : k - 1 + 1 = k := Nat.succ_pred_eq_of_pos hkpos
          calc k * (N - m) = (k - 1 + 1) * (N - m) := by rw [hk1]
            _ = (k - 1) * (N - m) + (N - m) := by ring
        omega
    have hbuflen : (l.drop (k * (N - m))).length = l.length - k * (N - m) :=
      List.length_drop _ _
    have hd : (l ++ [f]).drop (k * (N - m)) = l.drop (k * (N - m)) ++ [f] :=
      List.drop_append_of_le_length hks
    have hmap : List.map (chunkSpec N (N - m) (l ++ [f])) (List.range k) =
        List.map (chunkSpec N (N - m) l) (List.range k) :=
      List.map_congr_left fun j hj =>
        chunkSpec_append N (N - m) l f j (hbound j (List.mem_range.mp hj))
    rcases Nat.lt_or_ge ((l.drop (k * (N - m))).length + 1) N with hA | hge
    · -- the new frame does not yet fill a chunk
      rw [runChunker_append_some N m l f _ _ _ _ hrun
        (addFrame_of_short N m _ f hA)]
      refine ⟨k, ?_, by simp; omega, fun j hj => by
        have := hbound j hj; simp; omega⟩
      rw [hd, hmap, List.append_nil]
    · -- the new frame completes a chunk: exactly one emission
      have hB : (l.drop (k * (N - m))).length + 1 = N := by omega
      rw [runChunker_append_some N m l f _ _ _ _ hrun
        (addFrame_of_full N m _ f hm hB)]
      have hlen1 : (l.drop (k * (N - m)) ++ [f]).length = N := by
        simpa using hB
      have hnew : chunkSpec N (N - m) (l ++ [f]) k =
          (l.drop (k * (N - m)) ++ [f]).flatten := by
        unfold chunkSpec
        rw [hd, List.take_of_length_le (le_of_eq hlen1)]
      have hmul : (k + 1) * (N - m) = k * (N - m) + (N - m) := by ring
      have hfirst : (l ++ [f]).drop ((k + 1) * (N - m)) =
          List.drop (N - m) (l.drop (k * (N - m)) ++ [f]) := by
        rw [← hd, List.drop_drop]
        congr 1
      refine ⟨k + 1, ?_, by simp; omega, ?_⟩
      · rw [List.range_succ, List.map_append, hmap, hfirst]
        simp [hnew]
      · intro j hj
        rcases Nat.lt_succ_iff_lt_or_eq.mp hj with h | h
        · have := hbound j h; simp; omega
        · subst h; simp; omega

-- Derived chunk-stream properties (claim C1) ----------------------------------

theorem chunkSpec_length (N m L : Nat) (frames : List (List Int))
    (hL : ∀ f ∈ frames, f.length = L) (j : Nat)
    (h : j * (N - m) + N ≤ frames.length) :
    (chunkSpec N (N - m) frames j).length = N * L := by
  unfold chunkSpec
  have hmem : ∀ x ∈ (frames.drop (j * (N - m))).take N, x.length = L :=
    fun x hx => hL x (List.mem_of_mem_drop (List.mem_of_mem_take hx))
  rw [flatten_length_uniform L _ hmem, List.length_take, List.length_drop]
  congr 1
  omega

/-- Adjacent chunks agree on `overlap_frames` frames of audio: the trailing
`m * L` samples of chunk `j` equal the leading `m * L` samples of chunk
`j + 1`. -/
theorem chunkSpec_adjacent (N m L : Nat) (hm : m < N)
    (frames : List (List Int)) (hL : ∀ f ∈ frames, f.length = L) (j : Nat) :
    (chunkSpec N (N - m) frames j).drop ((N - m) * L) =
      (chunkSpec N (N - m) frames (j + 1)).take (m * L) := by
  have hAmem : ∀ x ∈ (frames.drop (j * (N - m))).take N, x.length = L :=
    fun x hx => hL x (List.mem_of_mem_drop (List.mem_of_mem_take hx))
  have hBmem : ∀ x ∈ (frames.drop ((j + 1) * (N - m))).take N, x.length = L :=
    fun x hx => hL x (List.mem_of_mem_drop (List.mem_of_mem_take hx))
  unfold chunkSpec
  rw [flatten_drop_uniform L (N - m) _ hAmem, flatten_take_uniform L m _ hBmem,
    List.drop_take, List.drop_drop, List.take_take,
    Nat.min_eq_left (le_of_lt hm),
    show N - (N - m) = m from by omega,
    show j * (N - m) + (N - m) = (j + 1) * (N - m) from by ring]

theorem dechunk_append (ov : Nat) (l : List (List Int)) (e : List Int)
    (h : l ≠ []) : dechunk ov (l ++ [e]) = dechunk ov l ++ e.drop ov := by
  cases l with
  | nil => exact absurd rfl h
  | cons c cs => simp [dechunk]

/-- Concatenating the emitted chunks with every chunk's leading overlap removed
(first chunk kept whole) rebuilds exactly the prefix of the sample stream
covered by the last emitted chunk. -/
theorem dechunk_eq (N m L : Nat) (hm : m < N) (frames : List (List Int))
    (hL : ∀ f ∈ frames, f.length = L) :
    ∀ k, 1 ≤ k → (∀ j < k, j * (N - m) + N ≤ frames.length) →
      dechunk (m * L) ((List.range k).map (chunkSpec N (N - m) frames)) =
        (frames.take ((k - 1) * (N - m) + N)).flatten := by
  intro k
  induction k with
  | zero => omega
  | succ k ih =>
    intro _ hbound
    rcases Nat.eq_zero_or_pos k with hk0 | hkpos
    · subst hk0
      simp [List.range_succ, dechunk, chunkSpec]
    · have hb : ∀ j < k, j * (N - m) + N ≤ frames.length := fun j hj =>
        hbound j (Nat.lt_succ_of_lt hj)
      have hkb := hbound k (Nat.lt_succ_self k)
      rw [List.range_succ, List.map_append, List.map_cons, List.map_nil,
        dechunk_append _ _ _ (by simp; omega), ih hkpos hb]
      have hCmem : ∀ x ∈ (frames.drop (k * (N - m))).take N, x.length = L :=
        fun x hx => hL x (List.mem_of_mem_drop (List.mem_of_mem_take hx))
      unfold chunkSpec
      rw [flatten_drop_uniform L m _ hCmem, List.drop_take, List.drop_drop]
      have hk1 : k - 1 + 1 = k := Nat.succ_pred_eq_of_pos hkpos
      have harith : (k - 1) * (N - m) + N = k * (N - m) + m := by
        have h2 : k * (N - m) = (k - 1) * (N - m) + (N - m) := by
          calc k * (N - m) = (k - 1 + 1) * (N - m) := by rw [hk1]
            _ = (k - 1) * (N - m) + (N - m) := by ring
        omega
      simp only [Nat.add_sub_cancel]
      rw [harith,
        show k * (N - m) + N = k * (N - m) + m + (N - m) from by omega,
        List.take_add frames (k * (N - m) + m) (N - m), List.flatten_append]

theorem flatten_take_prefix_flatten (t : Nat) (frames : List (List Int)) :
    (frames.take t).flatten <+: frames.flatten :=
  ⟨(frames.drop t).flatten, by rw [← List.flatten_append, List.take_append_drop]⟩

/-- Claim C1: for a stream of equal-length frames fed into a fresh
`AudioChunker` with `overlap_frames < chunk_frames`, the run succeeds, every
emitted chunk is exactly `chunk_frames * frame_len` samples, every pair of
adjacent chunks shares exactly `overlap_frames` frames of audio (the trailing
overlap of one chunk equals the leading overlap of the next), and concatenating
the chunks with each chunk's leading overlap removed (the first chunk has none)
reproduces a prefix of the original sample stream with no sample lost. -/
theorem chunker_overlap_and_reassembly (N m L : Nat) (hm : m < N)
    (frames : List (List Int)) (hL : ∀ f ∈ frames, f.length = L) :
    ∃ buf chunks, runChunker N m frames = some (buf, chunks) ∧
      (∀ c ∈ chunks, c.length = N * L) ∧
      List.Chain' (fun c d => c.drop ((N - m) * L) = d.take (m * L)) chunks ∧
      dechunk (m * L) chunks <+: frames.flatten := by
  obtain ⟨k, hrun, hlt, hbound⟩ := runChunker_closed N m hm frames
  refine ⟨_, _, hrun, ?_, ?_, ?_⟩
  · intro c hc
    rw [List.mem_map] at hc
    obtain ⟨j, hj, rfl⟩ := hc
    exact chunkSpec_length N m L frames hL j (hbound j (List.mem_range.mp hj))
  · rw [List.chain'_map]
    cases k with
    | zero => simp
    | succ k =>
      rw [List.chain'_range_succ]
      intro j _
      exact chunkSpec_adjacent N m L hm frames hL j
  · rcases Nat.eq_zero_or_pos k with h0 | hpos
    · subst h0
      simp only [List.range_zero, List.map_nil, dechunk]
      exact List.nil_prefix
    · rw [dechunk_eq N m L hm frames hL k hpos hbound]
      exact flatten_take_prefix_flatten _ frames

/-- Concrete instantiation of `chunker_overlap_and_reassembly`: a five-frame
stream with `chunk_frames = 3`, `overlap_frames = 1`, one sample per frame. -/
theorem chunker_overlap_and_reassembly_witness :
    ∃ buf chunks,
      runChunker 3 1 [[1], [2], [3], [4], [5]] = some (buf, chunks) ∧
      (∀ c ∈ chunks, c.length = 3 * 1) ∧
      List.Chain' (fun c d => c.drop ((3 - 1) * 1) = d.take (1 * 1)) chunks ∧
      dechunk (1 * 1) chunks <+: [[1], [2], [3], [4], [5]].flatten :=
  chunker_overlap_and_reassembly 3 1 1 (by decide)
    [[1], [2], [3], [4], [5]] (by decide)

end Chunker

namespace Segmenter

/-- Tunables of `LocalStreamingSTT`'s adaptive energy VAD
(local_stt_provider.py).  Python floats are modelled as exact rationals. -/
structure Params where
  frameSize : Nat            -- self.frame_size
  silenceThreshold : Nat     -- self._silence_threshold
  energyThreshold : ℚ        -- self._energy_threshold
  maxFramesPerSegment : Nat  -- self._max_frames_per_segment
  noiseAlpha : ℚ             -- self._noise_update_alpha
  noiseMultiplier : ℚ        -- self._noise_multiplier

/-- Mutable VAD state of `LocalStreamingSTT`.  `pending` is the FIFO of
segments handed to `_schedule_transcribe` by `_flush_segment`, in flush
order. -/
structure State where
  buffer : List (List Int)   -- self._buffer
  speechActive : Bool        -- self._speech_active
  silenceCount : Nat         -- self._silence_count
  framesInSegment : Nat      -- self._frames_in_segment
  noiseLevel : ℚ             -- self._noise_level
  pending : List (List Int)  -- self._pending

/-- Fresh state as set by `__init__` / reset by `start`:
`self._noise_level = 100.0`, everything else empty. -/
def initState : State :=
  { buffer := [], speechActive := false, silenceCount := 0,
    framesInSegment := 0, noiseLevel := 100, pending := [] }

/-- `level = float(np.mean(np.abs(frame)))`: mean absolute amplitude. -/
def levelOf (frame : List Int) : ℚ :=
  (frame.map (fun x => |(x : ℚ)|)).sum / frame.length

/-- The noise floor after seeing this frame: updated by exponential smoothing
only when no speech is active (send_pcm16: `if not self._speech_active`). -/
def noiseAfter (p : Params) (st : State) (frame : List Int) : ℚ :=
  if st.speechActive then st.noiseLevel
  else (1 - p.noiseAlpha) * st.noiseLevel + p.noiseAlpha * levelOf frame

/-- `dyn_thresh = max(self._energy_threshold, self._noise_level * self._noise_multiplier)`
(computed after the noise update). -/
def dynThreshold (p : Params) (st : State) (frame : List Int) : ℚ :=
  max p.energyThreshold (noiseAfter p st frame * p.noiseMultiplier)

/-- `LocalStreamingSTT._flush_segment`: a non-empty buffer is concatenated,
enqueued for background transcription and cleared; an empty buffer is a no-op
(the early `return` also skips the `_frames_in_segment = 0` reset). -/
def flushSegment (st : State) : State :=
  if st.buffer = [] then st
  else { st with buffer := [],
                 pending := st.pending ++ [st.buffer.flatten],
                 framesInSegment := 0 }

/-- One iteration of the per-frame VAD loop in `LocalStreamingSTT.send_pcm16`
(lines 165-199): adaptive noise update, dynamic threshold, speech/silence
branches with duration-cap force flush and end-of-utterance flush. -/
def processFrame (p : Params) (st : State) (frame : List Int) : State :=
  let st1 := { st with noiseLevel := noiseAfter p st frame }
  if dynThreshold p st frame < levelOf frame then
    let st2 := { st1 with buffer := st1.buffer ++ [frame],
                          speechActive := true,
                          silenceCount := 0,
                          framesInSegment := st1.framesInSegment + 1 }
    if p.maxFramesPerSegment ≤ st2.framesInSegment then
      { flushSegment st2 with speechActive := false, silenceCount := 0 }
    else st2
  else if st.speechActive then
    let st2 := { st1 with silenceCount := st1.silenceCount + 1 }
    if p.silenceThreshold ≤ st2.silenceCount then
      { flushSegment st2 with speechActive := false, silenceCount := 0 }
    else st2
  else st1

/-- Processing a stream of whole VAD frames in order. -/
def processFrames (p : Params) (st : State) (frames : List (List Int)) : State :=
  frames.foldl (processFrame p) st

/-- The `for i in range(0, len(pcm16), self.frame_size)` slicing in
`send_pcm16`: whole `frame_size`-sample frames, a short tail is dropped. -/
def fullFrames (size : Nat) (pcm : List Int) : List (List Int) :=
  if h : 0 < size ∧ size ≤ pcm.length then
    pcm.take size :: fullFrames size (pcm.drop size)
  else []
termination_by pcm.length
decreasing_by simp [List.length_drop]; omega

/-- `LocalStreamingSTT.send_pcm16`: slice the block into whole VAD frames and
run each through the per-frame loop. -/
def sendPcm16 (p : Params) (st : State) (pcm : List Int) : State :=
  processFrames p st (fullFrames p.frameSize pcm)

/-- A run of `send_pcm16` calls on a sequence of blocks. -/
def runSend (p : Params) (st : State) (blocks : List (List Int)) : State :=
  blocks.foldl (sendPcm16 p) st

/-- The stream is below (or at) the dynamic threshold at every step of the
run. -/
def QuietRun (p : Params) : State → List (List Int) → Prop
  | _, [] => True
  | st, f :: fs =>
    levelOf f ≤ dynThreshold p st f ∧ QuietRun p (processFrame p st f) fs

/-- The stream is strictly above the dynamic threshold at every step of the
run. -/
def LoudRun (p : Params) : State → List (List Int) → Prop
  | _, [] => True
  | st, f :: fs =>
    dynThreshold p st f < levelOf f ∧ LoudRun p (processFrame p st f) fs

-- Per-frame step lemmas -------------------------------------------------------

theorem processFrame_noiseLevel (p : Params) (st : State) (f : List Int) :
    (processFrame p st f).noiseLevel = noiseAfter p st f := by
  simp only [processFrame, flushSegment]
  split_ifs <;> rfl

theorem processFrame_quiet_inactive (p : Params) (st : State) (f : List Int)
    (h : levelOf f ≤ dynThreshold p st f) (ha : st.speechActive = false) :
    processFrame p st f = { st with noiseLevel := noiseAfter p st f } := by
  simp [processFrame, not_lt.mpr h, ha]

theorem processFrame_quiet_active_wait (p : Params) (st : State) (f : List Int)
    (h : levelOf f ≤ dynThreshold p st f) (ha : st.speechActive = true)
    (hc : st.silenceCount + 1 < p.silenceThreshold) :
    processFrame p st f = { st with silenceCount := st.silenceCount + 1 } := by
  simp [processFrame, not_lt.mpr h, ha, Nat.not_le.mpr hc, noiseAfter]

theorem processFrame_quiet_active_flush (p : Params) (st : State) (f : List Int)
    (h : levelOf f ≤ dynThreshold p st f) (ha : st.speechActive = true)
    (hc : p.silenceThreshold ≤ st.silenceCount + 1) (hb : st.buffer ≠ []) :
    processFrame p st f =
      { buffer := [], speechActive := false, silenceCount := 0,
        framesInSegment := 0, noiseLevel := st.noiseLevel,
        pending := st.pending ++ [st.buffer.flatten] } := by
  simp [processFrame, not_lt.mpr h, ha, hc, flushSegment, hb, noiseAfter]

theorem processFrame_loud_nocap (p : Params) (st : State) (f : List Int)
    (h : dynThreshold p st f < levelOf f)
    (hfis : st.framesInSegment + 1 < p.maxFramesPerSegment) :
    processFrame p st f =
      { buffer := st.buffer ++ [f], speechActive := true, silenceCount := 0,
        framesInSegment := st.framesInSegment + 1,
        noiseLevel := noiseAfter p st f, pending := st.pending } := by
  simp [processFrame, h, Nat.not_le.mpr hfis]

theorem processFrame_loud_cap (p : Params) (st : State) (f : List Int)
    (h : dynThreshold p st f < levelOf f)
    (hfis : p.maxFramesPerSegment ≤ st.framesInSegment + 1) :
    processFrame p st f =
      { buffer := [], speechActive := false, silenceCount := 0,
        framesInSegment := 0, noiseLevel := noiseAfter p st f,
        pending := st.pending ++ [(st.buffer ++ [f]).flatten] } := by
  simp [processFrame, h, hfis, flushSegment]

theorem processFrames_cons (p : Params) (st : State) (f : List Int)
    (fs : List (List Int)) :
    processFrames p st (f :: fs) = processFrames p (processFrame p st f) fs :=
  rfl

theorem processFrames_append (p : Params) (st : State)
    (l1 l2 : List (List Int)) :
    processFrames p st (l1 ++ l2) = processFrames p (processFrames p st l1) l2 :=
  List.foldl_append ..

-- Claim C4: the noise floor ----------------------------------------------------

theorem levelOf_nonneg (f : List Int) : 0 ≤ levelOf f := by
  unfold levelOf
  apply div_nonneg
  · apply List.sum_nonneg
    intro x hx
    rw [List.mem_map] at hx
    obtain ⟨a, _, rfl⟩ := hx
    exact abs_nonneg _
  · exact Nat.cast_nonneg _

theorem noiseAfter_nonneg (p : Params) (st : State) (f : List Int)
    (h0 : 0 ≤ p.noiseAlpha) (h1 : p.noiseAlpha ≤ 1)
    (hn : 0 ≤ st.noiseLevel) : 0 ≤ noiseAfter p st f := by
  unfold noiseAfter
  split
  · exact hn
  · have := levelOf_nonneg f
    nlinarith

/-- Claim C4: the noise floor is updated only on frames processed while no
speech is active — processing any frame, however loud, while the segmenter is
Active leaves it unchanged — and with a smoothing factor `α ∈ [0, 1]` it stays
nonnegative along every run started from a nonnegative value (the constructor
initialises it to `100.0`). -/
theorem noise_floor_invariant (p : Params) :
    (∀ st f, st.speechActive = true →
      (processFrame p st f).noiseLevel = st.noiseLevel) ∧
    (0 ≤ p.noiseAlpha → p.noiseAlpha ≤ 1 →
      ∀ fs st, 0 ≤ st.noiseLevel →
        0 ≤ (processFrames p st fs).noiseLevel) := by
  constructor
  · intro st f ha
    rw [processFrame_noiseLevel]
    simp [noiseAfter, ha]
  · intro h0 h1 fs
    induction fs with
    | nil => intro st hn; exact hn
    | cons f fs ih =>
      intro st hn
      rw [processFrames_cons]
      exact ih _ (by rw [processFrame_noiseLevel]
                     exact noiseAfter_nonneg p st f h0 h1 hn)

-- Quiet-stream behaviour -------------------------------------------------------

/-- While no speech is active, frames at or below the dynamic threshold change
nothing except the noise floor: nothing is buffered, nothing is flushed. -/
theorem quietRun_no_flush (p : Params) :
    ∀ fs st, QuietRun p st fs → st.speechActive = false →
      (processFrames p st fs).pending = st.pending ∧
      (processFrames p st fs).buffer = st.buffer ∧
      (processFrames p st fs).speechActive = false ∧
      (processFrames p st fs).silenceCount = st.silenceCount ∧
      (processFrames p st fs).framesInSegment = st.framesInSegment := by
  intro fs
  induction fs with
  | nil => intro st _ ha; exact ⟨rfl, rfl, ha, rfl, rfl⟩
  | cons f fs ih =>
    intro st hq ha
    obtain ⟨h1, h2⟩ := hq
    rw [processFrames_cons, processFrame_quiet_inactive p st f h1 ha]
    rw [processFrame_quiet_inactive p st f h1 ha] at h2
    exact ih _ h2 ha

/-- While a segment is open, sustained silence of at least
`silence_frame_threshold` frames flushes exactly that segment. -/
theorem quietRun_flush (p : Params) :
    ∀ qs st, QuietRun p st qs → st.speechActive = true → st.buffer ≠ [] →
      st.silenceCount < p.silenceThreshold →
      p.silenceThreshold ≤ st.silenceCount + qs.length →
      (processFrames p st qs).pending = st.pending ++ [st.buffer.flatten] := by
  intro qs
  induction qs with
  | nil => intro st _ _ _ hlt hle; simp at hle; omega
  | cons f qs ih =>
    intro st hq ha hb hlt hle
    obtain ⟨h1, h2⟩ := hq
    rcases Nat.lt_or_ge (st.silenceCount + 1) p.silenceThreshold with hc | hc
    · rw [processFrames_cons, processFrame_quiet_active_wait p st f h1 ha hc]
      rw [processFrame_quiet_active_wait p st f h1 ha hc] at h2
      have := ih _ h2 ha hb hc (by simp at hle ⊢; omega)
      simpa using this
    · rw [processFrames_cons, processFrame_quiet_active_flush p st f h1 ha hc hb]
      rw [processFrame_quiet_active_flush p st f h1 ha hc hb] at h2
      have := (quietRun_no_flush p qs _ h2 rfl).1
      simpa using this

-- Loud-stream closed form ------------------------------------------------------

/-- Splitting a frame list into maximal leading groups of exactly `M` frames
(each group concatenated into one segment) plus the leftover tail. -/
def segSplit (M : Nat) (l : List (List Int)) :
    List (List Int) × List (List Int) :=
  if h : 0 < M ∧ M ≤ l.length then
    let r := segSplit M (l.drop M)
    ((l.take M).flatten :: r.1, r.2)
  else ([], l)
termination_by l.length
decreasing_by simp [List.length_drop]; omega

theorem segSplit_of_lt (M : Nat) (l : List (List Int)) (h : l.length < M) :
    segSplit M l = ([], l) := by
  rw [segSplit, dif_neg]
  omega

theorem segSplit_of_le (M : Nat) (l : List (List Int)) (h0 : 0 < M)
    (h : M ≤ l.length) :
    segSplit M l = ((l.take M).flatten :: (segSplit M (l.drop M)).1,
      (segSplit M (l.drop M)).2) := by
  rw [segSplit, dif_pos ⟨h0, h⟩]

/-- Closed form of a continuous above-threshold run: every time the open
segment reaches `max_segment_frames` frames it is force-flushed and the run
keeps going, so the pending queue gains one segment per full group of
`max_segment_frames` frames and the leftover frames form the open buffer. -/
theorem loudRun_closed (p : Params) :
    ∀ fs st, LoudRun p st fs →
      st.framesInSegment = st.buffer.length →
      st.buffer.length < p.maxFramesPerSegment →
      (processFrames p st fs).pending =
        st.pending ++ (segSplit p.maxFramesPerSegment (st.buffer ++ fs)).1 ∧
      (processFrames p st fs).buffer =
        (segSplit p.maxFramesPerSegment (st.buffer ++ fs)).2 ∧
      (processFrames p st fs).framesInSegment =
        (segSplit p.maxFramesPerSegment (st.buffer ++ fs)).2.length ∧
      (processFrames p st fs).speechActive =
        (if fs = [] then st.speechActive
         else !(segSplit p.maxFramesPerSegment (st.buffer ++ fs)).2.isEmpty) ∧
      (processFrames p st fs).silenceCount =
        (if fs = [] then st.silenceCount else 0) := by
  intro fs
  induction fs with
  | nil =>
    intro st _ hfis hlen
    rw [List.append_nil, segSplit_of_lt _ _ hlen]
    exact ⟨by simp [processFrames], rfl, hfis, by simp [processFrames],
      by simp [processFrames]⟩
  | cons f fs ih =>
    intro st hl hfis hlen
    obtain ⟨h1, h2⟩ := hl
    have hM : 0 < p.maxFramesPerSegment := by omega
    rcases Nat.lt_or_ge (st.framesInSegment + 1) p.maxFramesPerSegment
      with hc | hc
    · -- below the cap: the frame joins the open segment
      rw [processFrames_cons, processFrame_loud_nocap p st f h1 hc]
      rw [processFrame_loud_nocap p st f h1 hc] at h2
      have := ih _ h2 (by simp; omega) (by simp; omega)
      simp only at this
      rw [show st.buffer ++ [f] ++ fs = st.buffer ++ (f :: fs) by simp] at this
      obtain ⟨c1, c2, c3, c4, c5⟩ := this
      refine ⟨by simpa using c1, c2, c3, ?_, ?_⟩
      · rw [c4]
        rcases Nat.eq_zero_or_pos fs.length with hfs | hfs
        · rw [List.length_eq_zero.mp hfs]
          have hrest := segSplit_of_lt p.maxFramesPerSegment
            (st.buffer ++ [f]) (by simp; omega)
          simp [List.length_eq_zero.mp hfs, hrest]
        · have : fs ≠ [] := by
            intro hnil; rw [hnil] at hfs; simp at hfs
          simp [this]
      · rw [c5]
        rcases Nat.eq_zero_or_pos fs.length with hfs | hfs
        · simp [List.length_eq_zero.mp hfs]
        · have : fs ≠ [] := by
            intro hnil; rw [hnil] at hfs; simp at hfs
          simp [this]
    · -- cap reached: force flush of exactly M frames
      have hfull : (st.buffer ++ [f]).length = p.maxFramesPerSegment := by
        simp; omega
      rw [processFrames_cons, processFrame_loud_cap p st f h1 hc]
      rw [processFrame_loud_cap p st f h1 hc] at h2
      have := ih _ h2 (by simp) (by simpa using hM)
      simp only [List.nil_append] at this
      obtain ⟨c1, c2, c3, c4, c5⟩ := this
      have hassoc : st.buffer ++ (f :: fs) = (st.buffer ++ [f]) ++ fs := by simp
      have htake : ((st.buffer ++ [f]) ++ fs).take p.maxFramesPerSegment
          = st.buffer ++ [f] := by
        rw [← hfull]
        exact List.take_left _ _
      have hdrop : ((st.buffer ++ [f]) ++ fs).drop p.maxFramesPerSegment
          = fs := by
        rw [← hfull]
        exact List.drop_left _ _
      have hsplit := segSplit_of_le p.maxFramesPerSegment
        ((st.buffer ++ [f]) ++ fs) hM (by rw [List.length_append, hfull]; omega)
      rw [htake, hdrop] at hsplit
      rw [hassoc, hsplit]
      refine ⟨?_, c2, c3, ?_, ?_⟩
      · rw [c1]; simp
      · rcases eq_or_ne fs [] with hfs | hfs
        · subst hfs
          rw [c4]
          rw [segSplit_of_lt p.maxFramesPerSegment [] (by simpa using hM)]
          simp
        · rw [c4]; simp [hfs]
      · rcases eq_or_ne fs [] with hfs | hfs
        · subst hfs
          rw [c5]; simp
        · rw [c5]; simp [hfs]

theorem segSplit_sizes_aux (M L : Nat) :
    ∀ n l, l.length ≤ n → (∀ x ∈ l, x.length = L) →
      ∀ s ∈ (segSplit M l).1, s.length = M * L := by
  intro n
  induction n with
  | zero =>
    intro l hn _ s hs
    rcases Nat.eq_zero_or_pos M with hM | hM
    · rw [segSplit] at hs
      simp [hM] at hs
    · rw [segSplit_of_lt M l (by omega)] at hs
      simp at hs
  | succ n ih =>
    intro l hn hL s hs
    rcases Nat.lt_or_ge l.length M with hlen | hlen
    · rw [segSplit_of_lt M l hlen] at hs
      simp at hs
    · have hM : 0 < M := by
        rcases Nat.eq_zero_or_pos M with h0 | h0
        · rw [segSplit] at hs; simp [h0] at hs
        · exact h0
      rw [segSplit_of_le M l hM hlen] at hs
      rcases List.mem_cons.mp hs with hhead | htail
      · subst hhead
        rw [Chunker.flatten_length_uniform L _
          (fun x hx => hL x (List.mem_of_mem_take hx)), List.length_take]
        congr 1
        omega
      · exact ih (l.drop M) (by rw [List.length_drop]; omega)
          (fun x hx => hL x (List.mem_of_mem_drop hx)) s htail

theorem segSplit_flatten_aux (M : Nat) :
    ∀ n l, l.length ≤ n →
      (segSplit M l).1.flatten ++ (segSplit M l).2.flatten = l.flatten := by
  intro n
  induction n with
  | zero =>
    intro l hn
    have : l = [] := List.length_eq_zero.mp (by omega)
    subst this
    rw [segSplit, dif_neg (by simp; omega)]
    simp
  | succ n ih =>
    intro l hn
    rcases Nat.lt_or_ge l.length M with hlen | hlen
    · rw [segSplit_of_lt M l hlen]
      simp
    · rcases Nat.eq_zero_or_pos M with hM | hM
      · rw [segSplit]
        simp [hM]
      · rw [segSplit_of_le M l hM hlen]
        have := ih (l.drop M) (by rw [List.length_drop]; omega)
        simp only [List.flatten_cons, List.append_assoc, this]
        rw [← List.flatten_append, List.take_append_drop]

theorem segSplit_ne_nil (M : Nat) (l : List (List Int)) (h0 : 0 < M)
    (h : M ≤ l.length) : (segSplit M l).1 ≠ [] := by
  rw [segSplit_of_le M l h0 h]
  simp

-- Claims C2 and C3 -------------------------------------------------------------

/-- Amended claim C2: a stream that never exceeds the dynamic threshold while
no speech is active flushes nothing; and a stream that exceeds the threshold at
every step for `K` frames (with `1 ≤ K ≤ max_segment_frames`) and then stays at
or below it for at least `silence_frame_threshold ≥ 1` frames flushes exactly
one segment, containing exactly those `K` active frames in order. -/
theorem segmenter_quiet_and_single_segment (p : Params) :
    (∀ st fs, QuietRun p st fs → st.speechActive = false →
      (processFrames p st fs).pending = st.pending) ∧
    (∀ st as qs, st.buffer = [] → st.speechActive = false →
      st.silenceCount = 0 → st.framesInSegment = 0 →
      LoudRun p st as → QuietRun p (processFrames p st as) qs →
      1 ≤ as.length → as.length ≤ p.maxFramesPerSegment →
      1 ≤ p.silenceThreshold → p.silenceThreshold ≤ qs.length →
      (processFrames p st (as ++ qs)).pending =
        st.pending ++ [as.flatten]) := by
  constructor
  · intro st fs hq ha
    exact (quietRun_no_flush p fs st hq ha).1
  · intro st as qs hb ha hsc hfis hl hq hK hKM hst hqlen
    rw [processFrames_append]
    have hM : 0 < p.maxFramesPerSegment := by omega
    have hclosed := loudRun_closed p as st hl (by rw [hfis, hb]; rfl)
      (by rw [hb]; simpa using hM)
    rw [hb, List.nil_append] at hclosed
    obtain ⟨c1, c2, c3, c4, c5⟩ := hclosed
    have hane : as ≠ [] := by
      intro hnil; rw [hnil] at hK; simp at hK
    rw [if_neg hane] at c4 c5
    rcases Nat.lt_or_ge as.length p.maxFramesPerSegment with hcase | hcase
    · -- the whole loud run fits below the cap: flushed by the silence phase
      have hsplit := segSplit_of_lt p.maxFramesPerSegment as hcase
      have hs1 : (segSplit p.maxFramesPerSegment as).1 = [] := by rw [hsplit]
      have hs2 : (segSplit p.maxFramesPerSegment as).2 = as := by rw [hsplit]
      rw [hs1, List.append_nil] at c1
      rw [hs2] at c2
      rw [hs2] at c4
      have hact : (processFrames p st as).speechActive = true := by
        rw [c4]
        simp [hane]
      have := quietRun_flush p qs (processFrames p st as) hq hact
        (by rw [c2]; exact hane) (by rw [c5]; omega)
        (by rw [c5]; omega)
      rw [this, c1, c2]
    · -- the loud run hits the cap exactly: flushed by the force flush
      have hsplit := segSplit_of_le p.maxFramesPerSegment as hM (by omega)
      rw [List.take_of_length_le (by omega), List.drop_of_length_le (by omega),
        segSplit_of_lt p.maxFramesPerSegment [] (by simpa using hM)] at hsplit
      have hs1 : (segSplit p.maxFramesPerSegment as).1 = [as.flatten] := by
        rw [hsplit]
      have hs2 : (segSplit p.maxFramesPerSegment as).2 = [] := by rw [hsplit]
      rw [hs1] at c1
      rw [hs2] at c4
      have hact : (processFrames p st as).speechActive = false := by
        rw [c4]; rfl
      rw [(quietRun_no_flush p qs _ hq hact).1, c1]

/-- Claim C3: continuous above-threshold input longer than
`max_segment_frames` force-flushes segments of exactly `max_segment_frames`
frames; the flushed segments plus the still-open buffer partition the input
with no sample lost and none duplicated. -/
theorem segmenter_force_flush (p : Params) (L : Nat) (fs : List (List Int))
    (hl : LoudRun p initState fs) (hL : ∀ f ∈ fs, f.length = L)
    (hM : 0 < p.maxFramesPerSegment)
    (hlong : p.maxFramesPerSegment < fs.length) :
    (processFrames p initState fs).pending =
      (segSplit p.maxFramesPerSegment fs).1 ∧
    (∀ s ∈ (processFrames p initState fs).pending,
      s.length = p.maxFramesPerSegment * L) ∧
    (processFrames p initState fs).pending ≠ [] ∧
    (processFrames p initState fs).pending.flatten ++
      (processFrames p initState fs).buffer.flatten = fs.flatten := by
  have hclosed := loudRun_closed p fs initState hl rfl (by simpa using hM)
  rw [show initState.buffer ++ fs = fs from rfl] at hclosed
  obtain ⟨c1, c2, _, _, _⟩ := hclosed
  rw [show initState.pending = [] from rfl, List.nil_append] at c1
  refine ⟨c1, ?_, ?_, ?_⟩
  · rw [c1]
    exact segSplit_sizes_aux p.maxFramesPerSegment L fs.length fs le_rfl hL
  · rw [c1]
    exact segSplit_ne_nil _ _ hM (by omega)
  · rw [c1, c2]
    exact segSplit_flatten_aux p.maxFramesPerSegment fs.length fs le_rfl

-- Concrete configurations for instantiation ------------------------------------

/-- A small concrete configuration (one-sample frames, silence threshold 1,
duration cap 3, smoothing `α = 0`). -/
def wParams : Params :=
  { frameSize := 1, silenceThreshold := 1, energyThreshold := 500,
    maxFramesPerSegment := 3, noiseAlpha := 0, noiseMultiplier := 2 }

/-- Like `wParams` but with duration cap 2, to exercise the force flush. -/
def cexParams : Params :=
  { frameSize := 1, silenceThreshold := 1, energyThreshold := 500,
    maxFramesPerSegment := 2, noiseAlpha := 0, noiseMultiplier := 2 }

/-- Concrete instantiation of `segmenter_quiet_and_single_segment`: two loud
frames then one quiet frame flush exactly the segment `[600, 600]`; an
all-quiet stream flushes nothing. -/
theorem segmenter_quiet_and_single_segment_witness :
    (processFrames wParams initState [[0], [0]]).pending = initState.pending ∧
    (processFrames wParams initState ([[600], [600]] ++ [[0]])).pending =
      initState.pending ++ [[[600], [600]].flatten] :=
  ⟨(segmenter_quiet_and_single_segment wParams).1 initState [[0], [0]]
      (by norm_num [QuietRun, dynThreshold, noiseAfter, levelOf, initState,
        wParams, processFrame]) rfl,
   (segmenter_quiet_and_single_segment wParams).2 initState [[600], [600]]
      [[0]] rfl rfl rfl rfl
      (by norm_num [LoudRun, dynThreshold, noiseAfter, levelOf, initState,
        wParams, processFrame, flushSegment])
      (by norm_num [QuietRun, dynThreshold, noiseAfter, levelOf, initState,
        wParams, processFrame, processFrames, flushSegment, List.foldl])
      (by norm_num) (by norm_num [wParams]) (by norm_num [wParams])
      (by norm_num [wParams])⟩

/-- Counterexample to claim C2 as stated: with `max_segment_frames = 2`, a run
of exactly `K = 3` consecutive above-threshold frames followed by one
below-threshold frame (meeting `silence_frame_threshold = 1`) flushes TWO
segments, `[600, 600]` and `[600]` — not one segment containing the three
active frames. -/
theorem segmenter_single_segment_counterexample :
    LoudRun cexParams initState [[600], [600], [600]] ∧
    QuietRun cexParams
      (processFrames cexParams initState [[600], [600], [600]]) [[0]] ∧
    cexParams.silenceThreshold ≤ [[0]].length ∧
    (processFrames cexParams initState
      ([[600], [600], [600]] ++ [[0]])).pending = [[600, 600], [600]] ∧
    (processFrames cexParams initState
      ([[600], [600], [600]] ++ [[0]])).pending ≠ [[600, 600, 600]] := by
  refine ⟨?_, ?_, ?_, ?_, ?_⟩ <;>
    norm_num [LoudRun, QuietRun, processFrames, processFrame, dynThreshold,
      noiseAfter, levelOf, initState, cexParams, flushSegment, List.foldl,
      List.cons_ne_nil]

/-- Concrete instantiation of `segmenter_force_flush`: three loud one-sample
frames with duration cap 2 flush one two-frame segment and keep the third
frame buffered. -/
theorem segmenter_force_flush_witness :
    (processFrames cexParams initState [[600], [600], [600]]).pending =
      (segSplit cexParams.maxFramesPerSegment [[600], [600], [600]]).1 ∧
    (∀ s ∈ (processFrames cexParams initState [[600], [600], [600]]).pending,
      s.length = cexParams.maxFramesPerSegment * 1) ∧
    (processFrames cexParams initState [[600], [600], [600]]).pending ≠ [] ∧
    (processFrames cexParams initState
        [[600], [600], [600]]).pending.flatten ++
      (processFrames cexParams initState [[600], [600], [600]]).buffer.flatten
      = [[600], [600], [600]].flatten :=
  segmenter_force_flush cexParams 1 [[600], [600], [600]]
    (by norm_num [LoudRun, dynThreshold, noiseAfter, levelOf, initState,
      cexParams, processFrame, flushSegment, List.cons_ne_nil])
    (by decide) (by norm_num [cexParams]) (by norm_num [cexParams])

/-- Concrete instantiation of `noise_floor_invariant`: a very loud frame while
Active leaves the floor untouched, and the floor stays nonnegative. -/
theorem noise_floor_invariant_witness :
    (processFrame wParams { initState with speechActive := true }
      [9999]).noiseLevel =
      ({ initState with speechActive := true } : State).noiseLevel ∧
    0 ≤ (processFrames wParams initState [[9999], [3]]).noiseLevel :=
  ⟨(noise_floor_invariant wParams).1 _ [9999] rfl,
   (noise_floor_invariant wParams).2 (by norm_num [wParams])
     (by norm_num [wParams]) [[9999], [3]] initState
     (by norm_num [initState])⟩

end Segmenter

namespace Resampler

/-- Clamp to the 16-bit signed range: `np.clip(out, -32768, 32767)`. -/
def clampQ (x : ℚ) : ℚ := max (-32768) (min 32767 x)

/-- `astype(np.int16)` truncates the float toward zero after the clamp. -/
def truncQ (x : ℚ) : Int := if x < 0 then ⌈x⌉ else ⌊x⌋

/-- Embedding of `_resample_pcm16` (stream_workers.py lines 33-39), parametric
in the resampling core: `sps.resample(data, num)` is modelled as an arbitrary
function `core` returning `num` float samples (`scipy.signal.resample`
guarantees exactly `num` output samples, stated as the hypothesis `hcore` of
the theorems below).  `num = int(len(data_f) * dst_rate / src_rate)` truncates,
which on nonnegative values is floor division. -/
def resamplePcm16 (core : List Int → Nat → List ℚ) (pcm : List Int)
    (srcRate dstRate : Nat) : List Int :=
  if srcRate = dstRate ∨ pcm.length = 0 then pcm
  else (core pcm (pcm.length * dstRate / srcRate)).map fun x => truncQ (clampQ x)

/-- `round(a / b)` with rounding half up, as the spec's `round(len × target/source)`
reads. -/
def roundDiv (a b : Nat) : Nat := (2 * a + b) / (2 * b)

/-- A concrete resampling core used to instantiate the counterexample: it has
scipy's length guarantee. -/
def coreZero : List Int → Nat → List ℚ := fun _ n => List.replicate n 0

theorem resamplePcm16_of_ne (core : List Int → Nat → List ℚ) (pcm : List Int)
    (srcRate dstRate : Nat) (h : ¬(srcRate = dstRate ∨ pcm.length = 0)) :
    resamplePcm16 core pcm srcRate dstRate =
      (core pcm (pcm.length * dstRate / srcRate)).map
        fun x => truncQ (clampQ x) := by
  unfold resamplePcm16
  rw [if_neg h]

theorem truncQ_clamp_range (x : ℚ) :
    -32768 ≤ truncQ (clampQ x) ∧ truncQ (clampQ x) ≤ 32767 := by
  have hlo : (-32768 : ℚ) ≤ clampQ x := le_max_left _ _
  have hhi : clampQ x ≤ 32767 :=
    max_le (by norm_num) (min_le_left _ _)
  unfold truncQ
  split_ifs with hneg
  · constructor
    · have := Int.ceil_le_ceil hlo
      simpa using this
    · have : ⌈clampQ x⌉ ≤ ⌈(32767 : ℚ)⌉ := Int.ceil_le_ceil hhi
      simpa using this
  · constructor
    · have : ⌊(-32768 : ℚ)⌋ ≤ ⌊clampQ x⌋ := Int.floor_le_floor hlo
      simpa using this
    · have : ⌊clampQ x⌋ ≤ ⌊(32767 : ℚ)⌋ := Int.floor_le_floor hhi
      simpa using this

/-- The arithmetic heart of the ±1 round trip: floor-scaling a length up by
`dst/src` and back down loses at most one. -/
theorem updown_length (a src dst : Nat) (hsrc : 0 < src) (hlt : src < dst) :
    a * dst / src * src / dst ≤ a ∧ a ≤ a * dst / src * src / dst + 1 := by
  have hdst : 0 < dst := lt_trans hsrc hlt
  constructor
  · have h1 : a * dst / src * src ≤ a * dst := Nat.div_mul_le_self _ _
    calc a * dst / src * src / dst ≤ a * dst / dst := Nat.div_le_div_right h1
      _ = a := Nat.mul_div_cancel a hdst
  · rcases Nat.eq_zero_or_pos a with ha | ha
    · simp [ha]
    · have key : (a - 1) * dst ≤ a * dst / src * src := by
        have h1 := Nat.div_add_mod (a * dst) src
        have h2 : a * dst % src < src := Nat.mod_lt _ hsrc
        have h3 : a * dst / src * src = src * (a * dst / src) :=
          Nat.mul_comm _ _
        rw [Nat.sub_mul, one_mul]
        omega
      have := (Nat.le_div_iff_mul_le hdst).mpr key
      omega

/-- Amended claim C5: `_resample_pcm16` is the identity when the rates match or
the block is empty; otherwise the output holds `⌊len · target/source⌋` samples
(`int()` truncates — NOT round), every output value lies in
`[-32768, 32767]`, and resampling up to a higher rate and back preserves the
length within ±1 sample. -/
theorem resample_pcm16_spec (core : List Int → Nat → List ℚ)
    (hcore : ∀ xs n, (core xs n).length = n)
    (pcm : List Int) (srcRate dstRate : Nat) :
    ((srcRate = dstRate ∨ pcm = []) →
      resamplePcm16 core pcm srcRate dstRate = pcm) ∧
    (srcRate ≠ dstRate → pcm ≠ [] →
      (resamplePcm16 core pcm srcRate dstRate).length =
        pcm.length * dstRate / srcRate ∧
      ∀ y ∈ resamplePcm16 core pcm srcRate dstRate,
        -32768 ≤ y ∧ y ≤ 32767) ∧
    (0 < srcRate → srcRate < dstRate →
      (resamplePcm16 core (resamplePcm16 core pcm srcRate dstRate)
          dstRate srcRate).length ≤ pcm.length ∧
      pcm.length ≤ (resamplePcm16 core (resamplePcm16 core pcm srcRate dstRate)
          dstRate srcRate).length + 1) := by
  refine ⟨?_, ?_, ?_⟩
  · intro h
    unfold resamplePcm16
    rw [if_pos]
    rcases h with h | h
    · exact Or.inl h
    · exact Or.inr (by rw [h]; rfl)
  · intro hne hpcm
    have hcond : ¬(srcRate = dstRate ∨ pcm.length = 0) := by
      push_neg
      exact ⟨hne, by simpa [List.length_eq_zero] using hpcm⟩
    unfold resamplePcm16
    rw [if_neg hcond]
    refine ⟨by rw [List.length_map, hcore], ?_⟩
    intro y hy
    rw [List.mem_map] at hy
    obtain ⟨x, _, rfl⟩ := hy
    exact truncQ_clamp_range x
  · intro hsrc hlt
    have hdst : 0 < dstRate := lt_trans hsrc hlt
    have hne : srcRate ≠ dstRate := Nat.ne_of_lt hlt
    rcases eq_or_ne pcm [] with hp | hp
    · subst hp
      simp [resamplePcm16]
    · have hlen : 0 < pcm.length := List.length_pos.mpr hp
      have hcond1 : ¬(srcRate = dstRate ∨ pcm.length = 0) := by
        push_neg; exact ⟨hne, by omega⟩
      have hmidlen : (resamplePcm16 core pcm srcRate dstRate).length =
          pcm.length * dstRate / srcRate := by
        rw [resamplePcm16_of_ne core pcm srcRate dstRate hcond1,
          List.length_map, hcore]
      have hmidpos : 0 < (resamplePcm16 core pcm srcRate dstRate).length := by
        rw [hmidlen]
        have : pcm.length * srcRate ≤ pcm.length * dstRate :=
          Nat.mul_le_mul_left _ (le_of_lt hlt)
        have := Nat.div_le_div_right (c := srcRate) this
        rw [Nat.mul_div_cancel _ hsrc] at this
        omega
      have hcond2 : ¬(dstRate = srcRate ∨
          (resamplePcm16 core pcm srcRate dstRate).length = 0) := by
        push_neg; exact ⟨hne.symm, by omega⟩
      have hfin : (resamplePcm16 core (resamplePcm16 core pcm srcRate dstRate)
          dstRate srcRate).length =
          pcm.length * dstRate / srcRate * srcRate / dstRate := by
        rw [resamplePcm16_of_ne core _ dstRate srcRate hcond2,
          List.length_map, hcore, hmidlen]
      rw [hfin]
      exact updown_length pcm.length srcRate dstRate hsrc hlt

/-- Counterexample to claim C5 as stated: for a one-sample block resampled from
3 Hz to 5 Hz the code produces `int(1·5/3) = 1` sample, while
`round(1·5/3) = 2`. -/
theorem resample_round_counterexample :
    (resamplePcm16 coreZero [7] 3 5).length = 1 ∧
    roundDiv ([7].length * 5) 3 = 2 ∧
    (resamplePcm16 coreZero [7] 3 5).length ≠ roundDiv ([7].length * 5) 3 := by
  refine ⟨?_, by norm_num [roundDiv], ?_⟩ <;>
    simp [resamplePcm16, coreZero, roundDiv]

/-- Concrete instantiation of `resample_pcm16_spec` with the representative
core: a three-sample block resampled 3 → 5 and back. -/
theorem resample_pcm16_spec_witness :
    resamplePcm16 coreZero [1, 2, 3] 4 4 = [1, 2, 3] ∧
    (resamplePcm16 coreZero [1, 2, 3] 3 5).length = 3 * 5 / 3 ∧
    (resamplePcm16 coreZero
      (resamplePcm16 coreZero [1, 2, 3] 3 5) 5 3).length ≤ 3 :=
  ⟨(resample_pcm16_spec coreZero (fun xs n => by simp [coreZero])
      [1, 2, 3] 4 4).1 (Or.inl rfl),
   ((resample_pcm16_spec coreZero (fun xs n => by simp [coreZero])
      [1, 2, 3] 3 5).2.1 (by norm_num) (by simp)).1,
   ((resample_pcm16_spec coreZero (fun xs n => by simp [coreZero])
      [1, 2, 3] 3 5).2.2 (by norm_num) (by norm_num)).1⟩

end Resampler

namespace Workers

/-- The `while start < len(chunk)` splitting loop in the capture callback of
`SystemStreamWorker.run` (stream_workers.py lines 150-155): each iteration
sends `chunk[start:min(start+max_samples, len)]` and advances `start` to that
end.  The loop is given a step budget; `none` means the budget was exhausted
with the guard still true (with `max_samples = 0` the loop would never
advance). -/
def splitLoop (fuel maxSamples : Nat) (chunk : List Int) :
    Option (List (List Int)) :=
  match fuel with
  | 0 => if chunk = [] then some [] else none
  | fuel + 1 =>
    if chunk = [] then some []
    else
      match splitLoop fuel maxSamples (chunk.drop maxSamples) with
      | none => none
      | some rest => some (chunk.take maxSamples :: rest)

theorem splitLoop_spec (maxSamples : Nat) (hm : 0 < maxSamples) :
    ∀ n chunk, chunk.length ≤ n →
      ∃ pieces, splitLoop n maxSamples chunk = some pieces ∧
        pieces.flatten = chunk ∧
        (∀ p ∈ pieces, p.length ≤ maxSamples ∧ p ≠ []) := by
  intro n
  induction n with
  | zero =>
    intro chunk hlen
    have : chunk = [] := List.length_eq_zero.mp (by omega)
    subst this
    exact ⟨[], rfl, rfl, by simp⟩
  | succ n ih =>
    intro chunk hlen
    rcases eq_or_ne chunk [] with hc | hc
    · subst hc
      exact ⟨[], rfl, rfl, by simp⟩
    · have hpos : 0 < chunk.length := List.length_pos.mpr hc
      obtain ⟨rest, hrest, hflat, hsz⟩ := ih (chunk.drop maxSamples)
        (by rw [List.length_drop]; omega)
      refine ⟨chunk.take maxSamples :: rest, ?_, ?_, ?_⟩
      · unfold splitLoop
        rw [if_neg hc, hrest]
      · rw [List.flatten_cons, hflat, List.take_append_drop]
      · intro p hp
        rcases List.mem_cons.mp hp with hhead | htail
        · subst hhead
          refine ⟨by rw [List.length_take]; omega, ?_⟩
          intro hnil
          have := congrArg List.length hnil
          rw [List.length_take] at this
          simp only [List.length_nil] at this
          omega
        · exact hsz p htail

/-- Claim C7: the capture callback splits a chunk into consecutive sub-chunks
of at most `dst_rate * 40 / 1000` samples, handed to `send_pcm16` in list
order; the sub-chunks are all non-empty and concatenate back to exactly the
original chunk (no gaps, no overlaps). -/
theorem chunk_split_spec (dstRate : Nat) (chunk : List Int)
    (hd : 0 < dstRate * 40 / 1000) :
    ∃ pieces,
      splitLoop chunk.length (dstRate * 40 / 1000) chunk = some pieces ∧
      pieces.flatten = chunk ∧
      (∀ p ∈ pieces, p.length ≤ dstRate * 40 / 1000 ∧ p ≠ []) :=
  splitLoop_spec _ hd chunk.length chunk le_rfl

/-- Concrete instantiation of `chunk_split_spec` at 16 kHz (640-sample cap)
and at the smallest rate with a nonzero cap. -/
theorem chunk_split_spec_witness :
    ∃ pieces, splitLoop ([1, 2, 3] : List Int).length (25 * 40 / 1000)
        [1, 2, 3] = some pieces ∧
      pieces.flatten = [1, 2, 3] ∧
      (∀ p ∈ pieces, p.length ≤ 25 * 40 / 1000 ∧ p ≠ []) :=
  chunk_split_spec 25 [1, 2, 3] (by norm_num)

end Workers

namespace WsClient

/-- Events a `WebSocketSTTClient` in the handshake-variant (`provider ==
"baidu"`) configuration can process: an outbound `send_pcm16(pcm)` call, an
inbound server message with `code == 0` and `data.status == "STA"` (the ready
acknowledgment), or any other inbound message. -/
inductive WsAction
  | sendAudio (pcm : List Int)
  | msgSta
  | msgOther
deriving DecidableEq

/-- Observable client state: `self._ready`, `self._pending_chunks`, and the
ordered list of binary audio frames written to the socket. -/
structure WsState where
  ready : Bool
  pending : List (List Int)
  sentAudio : List (List Int)
deriving DecidableEq

/-- State after `__init__` / the handshake `on_open` (which sends START and
sets `self._ready = False` for the handshake variant). -/
def wsInit : WsState := { ready := false, pending := [], sentAudio := [] }

/-- One step of the handshake-variant client:
`send_pcm16` (ws_stt_provider.py lines 182-200) appends to `_pending_chunks`
when not ready and otherwise writes a binary frame; `on_message` on an `STA`
status (lines 101-110) sets ready and writes every pending chunk in order,
then clears the buffer; other messages leave the audio state alone. -/
def wsStep (st : WsState) : WsAction → WsState
  | .sendAudio pcm =>
    if st.ready then { st with sentAudio := st.sentAudio ++ [pcm] }
    else { st with pending := st.pending ++ [pcm] }
  | .msgSta =>
    { ready := true, pending := [], sentAudio := st.sentAudio ++ st.pending }
  | .msgOther => st

def wsRun (st : WsState) (as : List WsAction) : WsState := as.foldl wsStep st

/-- The audio blocks passed to `send_pcm16`, in call order. -/
def audioBlocks : List WsAction → List (List Int)
  | [] => []
  | .sendAudio pcm :: as => pcm :: audioBlocks as
  | .msgSta :: as => audioBlocks as
  | .msgOther :: as => audioBlocks as

theorem wsRun_invariant :
    ∀ as st, (st.ready = true → st.pending = []) →
      ((wsRun st as).ready = true → (wsRun st as).pending = []) ∧
      (wsRun st as).sentAudio ++ (wsRun st as).pending =
        st.sentAudio ++ st.pending ++ audioBlocks as ∧
      (st.ready = false → WsAction.msgSta ∉ as →
        (wsRun st as).sentAudio = st.sentAudio ∧
        (wsRun st as).pending = st.pending ++ audioBlocks as) := by
  intro as
  induction as with
  | nil =>
    intro st hr
    exact ⟨hr, by simp [wsRun, audioBlocks],
      fun _ _ => ⟨rfl, by simp [wsRun, audioBlocks]⟩⟩
  | cons a as ih =>
    intro st hr
    cases a with
    | sendAudio pcm =>
      cases hready : st.ready with
      | false =>
        -- not ready: buffered
        have hstep : wsStep st (.sendAudio pcm) =
            { st with pending := st.pending ++ [pcm] } := by
          simp [wsStep, hready]
        rw [show wsRun st (.sendAudio pcm :: as) =
          wsRun (wsStep st (.sendAudio pcm)) as from rfl, hstep]
        obtain ⟨i1, i2, i3⟩ := ih { st with pending := st.pending ++ [pcm] }
          (by intro h; simp at h; rw [h] at hready; cases hready)
        refine ⟨i1, by simpa [audioBlocks] using i2, ?_⟩
        intro _ hmem
        obtain ⟨j1, j2⟩ := i3 hready
          (fun hmm => hmem (List.mem_cons_of_mem _ hmm))
        exact ⟨j1, by simpa [audioBlocks] using j2⟩
      | true =>
        -- ready: sent at once (pending is empty)
        have hpend := hr hready
        have hstep : wsStep st (.sendAudio pcm) =
            { st with sentAudio := st.sentAudio ++ [pcm] } := by
          simp [wsStep, hready]
        rw [show wsRun st (.sendAudio pcm :: as) =
          wsRun (wsStep st (.sendAudio pcm)) as from rfl, hstep]
        obtain ⟨i1, i2, i3⟩ := ih { st with sentAudio := st.sentAudio ++ [pcm] }
          (by intro _; simpa using hpend)
        refine ⟨i1, ?_, ?_⟩
        · rw [i2]
          simp [audioBlocks, hpend]
        · intro hfalse _
          simp at hfalse
    | msgSta =>
      have hstep : wsStep st .msgSta =
          { ready := true, pending := [],
            sentAudio := st.sentAudio ++ st.pending } := rfl
      rw [show wsRun st (.msgSta :: as) =
        wsRun (wsStep st .msgSta) as from rfl, hstep]
      obtain ⟨i1, i2, i3⟩ := ih
        { ready := true, pending := [], sentAudio := st.sentAudio ++ st.pending }
        (by intro _; rfl)
      refine ⟨i1, ?_, ?_⟩
      · rw [i2]
        simp [audioBlocks]
      · intro _ hmem
        exact absurd (List.mem_cons_self _ _) (fun h => hmem h)
    | msgOther =>
      rw [show wsRun st (.msgOther :: as) = wsRun (wsStep st .msgOther) as
        from rfl, show wsStep st .msgOther = st from rfl]
      obtain ⟨i1, i2, i3⟩ := ih st hr
      refine ⟨i1, by simpa [audioBlocks] using i2, ?_⟩
      intro hready hmem
      obtain ⟨j1, j2⟩ := i3 hready (fun hmm => hmem (List.mem_cons_of_mem _ hmm))
      exact ⟨j1, by simpa [audioBlocks] using j2⟩

/-- Claim C6: for the handshake-variant client, (1) while the ready (`STA`)
acknowledgment has not been observed, no audio is written to the socket and
every `send_pcm16` block is buffered in arrival order; (2) at all times the
socket audio followed by the buffer equals the full arrival-ordered block
stream (nothing dropped, nothing reordered); (3) the moment `STA` arrives, all
buffered blocks are written in original order and the buffer empties. -/
theorem ws_handshake_buffering :
    (∀ as, WsAction.msgSta ∉ as →
      (wsRun wsInit as).sentAudio = [] ∧
      (wsRun wsInit as).pending = audioBlocks as) ∧
    (∀ as, (wsRun wsInit as).sentAudio ++ (wsRun wsInit as).pending =
      audioBlocks as) ∧
    (∀ as, (wsRun wsInit (as ++ [WsAction.msgSta])).sentAudio =
        audioBlocks as ∧
      (wsRun wsInit (as ++ [WsAction.msgSta])).pending = []) := by
  have hinv := fun as => wsRun_invariant as wsInit (by intro h; cases h)
  refine ⟨?_, ?_, ?_⟩
  · intro as hmem
    obtain ⟨j1, j2⟩ := (hinv as).2.2 rfl hmem
    exact ⟨j1, by simpa using j2⟩
  · intro as
    have := (hinv as).2.1
    simpa [wsInit] using this
  · intro as
    have hstep : wsRun wsInit (as ++ [WsAction.msgSta]) =
        wsStep (wsRun wsInit as) .msgSta := List.foldl_append ..
    have hflat := (hinv as).2.1
    rw [hstep, show wsStep (wsRun wsInit as) .msgSta =
      { ready := true, pending := [],
        sentAudio := (wsRun wsInit as).sentAudio ++ (wsRun wsInit as).pending }
      from rfl]
    exact ⟨by simpa [wsInit] using hflat, rfl⟩

/-- Concrete instantiation of `ws_handshake_buffering`: two blocks sent before
readiness are buffered in order, and flushed exactly when `STA` arrives. -/
theorem ws_handshake_buffering_witness :
    (wsRun wsInit [WsAction.sendAudio [1], WsAction.sendAudio [2, 3]]).sentAudio
      = [] ∧
    (wsRun wsInit [WsAction.sendAudio [1], WsAction.sendAudio [2, 3]]).pending
      = [[1], [2, 3]] :=
  ws_handshake_buffering.1
    [WsAction.sendAudio [1], WsAction.sendAudio [2, 3]] (by decide)

end WsClient

namespace ProcQueue

/-- Events of the local backend's transcription queue: `_schedule_transcribe`
enqueueing a flushed segment, or one iteration of the single `_proc_loop`
worker. -/
inductive ProcAction
  | enqueue (seg : List Int)
  | step
deriving DecidableEq

/-- Observable queue state: `self._pending`, `self._processing`, and the
segments whose final transcript callback has been invoked, in order. -/
structure ProcState where
  pending : List (List Int)
  processing : Bool
  delivered : List (List Int)
deriving DecidableEq

def procInit : ProcState := { pending := [], processing := false, delivered := [] }

/-- One step, with `txt` the transcription oracle (the model's output text for
a segment; the exception path substitutes the nonempty "[local error] …"
marker).  `_schedule_transcribe` appends under the lock and marks the single
worker running; one `_proc_loop` iteration pops the FIFO head and invokes
`self._on_transcript(text, True)` when the text is nonempty, or exits
(clearing `_processing`) when the queue is empty. -/
def procStep (txt : List Int → String) (st : ProcState) :
    ProcAction → ProcState
  | .enqueue seg => { st with pending := st.pending ++ [seg], processing := true }
  | .step =>
    if st.processing then
      match st.pending with
      | [] => { st with processing := false }
      | d :: rest =>
        if txt d = "" then { st with pending := rest }
        else { st with pending := rest, delivered := st.delivered ++ [d] }
    else st

def procRun (txt : List Int → String) (st : ProcState)
    (as : List ProcAction) : ProcState := as.foldl (procStep txt) st

/-- The segments enqueued by a run, in flush order. -/
def segsOf : List ProcAction → List (List Int)
  | [] => []
  | .enqueue seg :: as => seg :: segsOf as
  | .step :: as => segsOf as

theorem procRun_invariant (txt : List Int → String) :
    ∀ as st,
      (procRun txt st as).delivered ++
        ((procRun txt st as).pending.filter fun s => txt s ≠ "") =
      st.delivered ++ (st.pending.filter fun s => txt s ≠ "") ++
        ((segsOf as).filter fun s => txt s ≠ "") := by
  intro as
  induction as with
  | nil => intro st; simp [procRun, segsOf]
  | cons a as ih =>
    intro st
    cases a with
    | enqueue seg =>
      rw [show procRun txt st (.enqueue seg :: as) =
        procRun txt (procStep txt st (.enqueue seg)) as from rfl]
      rw [ih]
      simp only [procStep, segsOf, List.filter_append, List.filter_cons,
        List.append_assoc, List.filter_nil]
      split <;> simp
    | step =>
      rw [show procRun txt st (.step :: as) =
        procRun txt (procStep txt st .step) as from rfl]
      cases hproc : st.processing with
      | false =>
        rw [show procStep txt st .step = st by simp [procStep, hproc]]
        rw [ih]
        simp [segsOf]
      | true =>
        cases hpend : st.pending with
        | nil =>
          rw [show procStep txt st .step = { st with processing := false } by
            simp [procStep, hproc, hpend]]
          rw [ih]
          simp [segsOf, hpend]
        | cons d rest =>
          by_cases htxt : txt d = ""
          · rw [show procStep txt st .step = { st with pending := rest } by
              simp [procStep, hproc, hpend, htxt]]
            rw [ih]
            simp [segsOf, hpend, List.filter_cons, htxt]
          · rw [show procStep txt st .step =
              { st with pending := rest,
                        delivered := st.delivered ++ [d] } by
              simp [procStep, hproc, hpend, htxt]]
            rw [ih]
            simp [segsOf, hpend, List.filter_cons, htxt]

/-- Claim C9: segments flushed by the segmenter are queued FIFO and drained by
the single background worker; the final transcript callbacks are delivered in
flush order, never reordered: at every point the delivered sequence is a
prefix of the (transcribable) flushed sequence, and when every segment
produces text (the error path substitutes a nonempty marker) the delivered
plus still-queued segments are exactly the flushed segments in order. -/
theorem proc_fifo_order (txt : List Int → String) (as : List ProcAction) :
    ((procRun txt procInit as).delivered ++
      ((procRun txt procInit as).pending.filter fun s => txt s ≠ "") =
        (segsOf as).filter fun s => txt s ≠ "") ∧
    (procRun txt procInit as).delivered <+:
      ((segsOf as).filter fun s => txt s ≠ "") ∧
    ((∀ s, txt s ≠ "") →
      (procRun txt procInit as).delivered ++ (procRun txt procInit as).pending
        = segsOf as) := by
  have h := procRun_invariant txt as procInit
  simp only [procInit, List.filter_nil, List.append_nil, List.nil_append] at h
  refine ⟨h, ⟨_, h⟩, ?_⟩
  intro hall
  have hfilter : ∀ l : List (List Int),
      (l.filter fun s => txt s ≠ "") = l := by
    intro l
    apply List.filter_eq_self.mpr
    intro a _
    simpa using hall a
  rw [hfilter, hfilter] at h
  exact h

/-- Concrete instantiation of `proc_fifo_order`: two segments enqueued in
quick succession and two worker iterations deliver both transcripts in flush
order. -/
theorem proc_fifo_order_witness :
    (procRun (fun _ => "ok") procInit
        [ProcAction.enqueue [1], ProcAction.enqueue [2], ProcAction.step,
          ProcAction.step]).delivered ++
      (procRun (fun _ => "ok") procInit
        [ProcAction.enqueue [1], ProcAction.enqueue [2], ProcAction.step,
          ProcAction.step]).pending =
      segsOf [ProcAction.enqueue [1], ProcAction.enqueue [2], ProcAction.step,
        ProcAction.step] :=
  (proc_fifo_order (fun _ => "ok")
    [ProcAction.enqueue [1], ProcAction.enqueue [2], ProcAction.step,
      ProcAction.step]).2.2 (fun _ => by decide)

end ProcQueue

namespace Orchestrator

/-- Major observable events of `SystemStreamWorker.run`, in program order. -/
inductive RunEvent
  | deviceOpened        -- the native `sd.InputStream` context is entered
  | fallbackOpened      -- the `DefaultLoopbackReader` context is entered
  | urlMissingReported  -- `message.emit("[WS] 未配置 WebSocket URL…")`
  | sessionStarted      -- a backend session was constructed and started
  | fatalReported       -- `status.emit("系统音频捕获失败: …")`
  | stopped             -- `status.emit("系统翻译已停止")`
deriving DecidableEq

/-- Events and success of `BaseStreamWorker._start_system_session`
(stream_workers.py lines 55-107): local mode constructs the local backend and
starts it; api mode with a configured websocket URL constructs the remote
client and starts it; api mode WITHOUT a URL emits the missing-URL message and
raises `RuntimeError("ws_url_missing")`. -/
def startSystemSessionEvents (modeLocal hasUrl : Bool) :
    List RunEvent × Bool :=
  if modeLocal then ([.sessionStarted], true)
  else if hasUrl then ([.sessionStarted], true)
  else ([.urlMissingReported], false)

/-- Ordered event trace of `SystemStreamWorker.run` (lines 124-327), keyed by
the configuration (`modeLocal`, `hasUrl`) and by whether the native capture
path and the fallback loopback reader can be opened.  The native path probes
channels, OPENS the capture stream, and only then calls
`_start_system_session` inside the stream's `with` block; a session-start
failure propagates out of the `with` (closing the stream), is caught by the
fallback handler, which opens the fallback reader and calls
`_start_system_session` again; a second failure reaches the outer handler,
which reports the fatal status; the final "stopped" status is always emitted.
(The session-restart block after the fallback loop, lines 267-323, is
reachable only after a successful fallback session and stop request, and is
omitted: it never runs in the missing-URL configuration this model decides.) -/
def systemRunTrace (modeLocal hasUrl nativeOk fallbackOk : Bool) :
    List RunEvent :=
  let st := startSystemSessionEvents modeLocal hasUrl
  let fallback : List RunEvent :=
    if fallbackOk then
      if st.2 then [.fallbackOpened] ++ st.1 ++ [.stopped]
      else [.fallbackOpened] ++ st.1 ++ [.fatalReported, .stopped]
    else [.fatalReported, .stopped]
  if nativeOk then
    if st.2 then [.deviceOpened] ++ st.1 ++ [.stopped]
    else [.deviceOpened] ++ st.1 ++ fallback
  else fallback

/-- Counterexample to claim C8 as stated: in api mode with no websocket URL
and a working native capture path, the capture stream is opened BEFORE the
missing-URL error is reported — the check does not fail fast before device
opening. -/
theorem url_missing_counterexample :
    RunEvent.deviceOpened ∈ systemRunTrace false false true true ∧
    RunEvent.urlMissingReported ∈ systemRunTrace false false true true ∧
    (systemRunTrace false false true true).indexOf RunEvent.deviceOpened <
      (systemRunTrace false false true true).indexOf
        RunEvent.urlMissingReported := by
  decide

/-- Amended claim C8: in api mode with a missing websocket URL, the session is
never started and the worker run aborts — the missing-URL error is reported to
the consumer (whenever a capture device can be opened at all) and the fatal
status and final stop status are emitted; but the configuration check runs
only after the capture stream has been opened, not before. -/
theorem url_missing_aborts (nativeOk fallbackOk : Bool) :
    RunEvent.sessionStarted ∉ systemRunTrace false false nativeOk fallbackOk ∧
    RunEvent.fatalReported ∈ systemRunTrace false false nativeOk fallbackOk ∧
    RunEvent.stopped ∈ systemRunTrace false false nativeOk fallbackOk ∧
    ((nativeOk || fallbackOk) = true →
      RunEvent.urlMissingReported ∈
        systemRunTrace false false nativeOk fallbackOk) ∧
    (nativeOk = true →
      (systemRunTrace false false nativeOk fallbackOk).indexOf
          RunEvent.deviceOpened <
        (systemRunTrace false false nativeOk fallbackOk).indexOf
          RunEvent.urlMissingReported) := by
  cases nativeOk <;> cases fallbackOk <;> decide

/-- Concrete instantiation of `url_missing_aborts` with both capture paths
available. -/
theorem url_missing_aborts_witness :
    RunEvent.urlMissingReported ∈ systemRunTrace false false true true ∧
    (systemRunTrace false false true true).indexOf RunEvent.deviceOpened <
      (systemRunTrace false false true true).indexOf
        RunEvent.urlMissingReported :=
  ⟨(url_missing_aborts true true).2.2.2.1 rfl,
   (url_missing_aborts true true).2.2.2.2 rfl⟩

end Orchestrator
